import Mathlib

/-!
Shallow embedding of the Glide Reader core (tokenizer, timing engine,
playback state handlers, session store) together with proofs of the
specification's claims about it.

Strings are modelled as `List Char`, JS numbers as `ℚ` (exact arithmetic;
none of the verified code paths depend on floating-point rounding), and
JS `Math.round`/`Math.floor` as explicit floor operations on `ℚ`.
-/

namespace Glide

/-- The character class matched by the JS regex `\s`. -/
def isWs (c : Char) : Bool :=
  c == ' ' || c == '\t' || c == '\n' || c.val == 11 || c.val == 12 || c == '\r' ||
  c.val == 0xa0 || c.val == 0x1680 || (0x2000 ≤ c.val && c.val ≤ 0x200a) ||
  c.val == 0x2028 || c.val == 0x2029 || c.val == 0x202f || c.val == 0x205f ||
  c.val == 0x3000 || c.val == 0xfeff

/-- Negation of `isWs`, used for taking maximal non-whitespace runs. -/
def notWs (c : Char) : Bool := !isWs c

/-- JS `Math.round` (round half up): `Math.round(x) = ⌊x + 1/2⌋`. -/
def jsRound (q : ℚ) : ℤ := ⌊q + 1 / 2⌋

/-- JS `String.prototype.trim`: drop whitespace from both ends. -/
def trimChars (l : List Char) : List Char :=
  ((l.dropWhile isWs).reverse.dropWhile isWs).reverse

/-- Prepend a character onto the first fragment of a fragment list
(used to build up the results of JS `String.prototype.split`). -/
def consHead (c : Char) : List (List Char) → List (List Char)
  | [] => [[c]]
  | w :: ws => (c :: w) :: ws

/-- Transducer for JS `s.split(/\s+/)`: `prevWs` records whether we are
inside a whitespace run (a fragment boundary has already been emitted
for it). -/
def splitWsAux (prevWs : Bool) : List Char → List (List Char)
  | [] => [[]]
  | c :: rest =>
    if isWs c then
      if prevWs then splitWsAux true rest else [] :: splitWsAux true rest
    else consHead c (splitWsAux false rest)

/-- JS `s.split(/\s+/)`: fragments between maximal whitespace runs,
with an empty fragment at either end when the string starts or ends
with whitespace, and `[""]` for the empty string. -/
def splitWs (l : List Char) : List (List Char) := splitWsAux false l

/-- JS `text.split(/\r?\n/)` from `tokenize`. -/
def splitLines : List Char → List (List Char)
  | [] => [[]]
  | '\r' :: '\n' :: rest => [] :: splitLines rest
  | '\n' :: rest => [] :: splitLines rest
  | c :: rest => consHead c (splitLines rest)

/-- Helper for the JS regex test `/\n\s*\n/`: the input starts with
whitespace and reaches a second newline within that whitespace run. -/
def wsThenNewline : List Char → Bool
  | [] => false
  | c :: rest => if c == '\n' then true else if isWs c then wsThenNewline rest else false

/-- JS `/\n\s*\n/.test(text)` from `calculatePauseMultiplier`. -/
def hasDoubleNewline : List Char → Bool
  | [] => false
  | c :: rest => (c == '\n' && wsThenNewline rest) || hasDoubleNewline rest

/-- Pause profile record (`PauseProfile` in `types`). -/
structure PauseProfile where
  comma : ℚ
  semicolon : ℚ
  colon : ℚ
  period : ℚ
  exclamation : ℚ
  question : ℚ
  paragraph : ℚ
deriving DecidableEq

/-- `PAUSE_PROFILES.fast` from `tokenizer.ts`. -/
def PAUSE_PROFILES_fast : PauseProfile :=
  { comma := 0.3, semicolon := 0.3, colon := 0.3, period := 0.8,
    exclamation := 0.8, question := 0.8, paragraph := 1.5 }

/-- `PAUSE_PROFILES.normal` from `tokenizer.ts`. -/
def PAUSE_PROFILES_normal : PauseProfile :=
  { comma := 0.4, semicolon := 0.4, colon := 0.4, period := 1.2,
    exclamation := 1.2, question := 1.2, paragraph := 2.0 }

/-- `PAUSE_PROFILES.slow` from `tokenizer.ts`. -/
def PAUSE_PROFILES_slow : PauseProfile :=
  { comma := 0.6, semicolon := 0.6, colon := 0.6, period := 1.8,
    exclamation := 1.8, question := 1.8, paragraph := 3.0 }

/-- `calculateORPIndex` from `tokenizer.ts`. -/
def calculateORPIndex (word : List Char) : ℕ :=
  let len := word.length
  if len ≤ 2 then 0
  else if len ≤ 5 then 1
  else if len ≤ 9 then 2
  else if len ≤ 13 then 3
  else 4

/-- `calculatePauseMultiplier` from `tokenizer.ts`.  Note that the code
returns `profile.comma` for both `,` and `;`, and checks the paragraph
regex on the pre-trim text. -/
def calculatePauseMultiplier (text : List Char) (profile : PauseProfile) : ℚ :=
  let trimmed := trimChars text
  if hasDoubleNewline text then profile.paragraph
  else
    match trimmed.getLast? with
    | some c =>
      if c = '.' ∨ c = '!' ∨ c = '?' then
        max profile.period (max profile.exclamation profile.question)
      else if c = ',' ∨ c = ';' then profile.comma
      else if c = ':' then profile.colon
      else 0
    | none => 0

/-- RSVP display token (`Token` in `types`). -/
structure Token where
  text : List Char
  orpIndex : ℕ
  pauseMultiplier : ℚ
deriving DecidableEq

/-- Body of the per-line loop of `tokenize` from `tokenizer.ts`:
trim the raw line, skip it when empty, split it on whitespace runs and
produce one token per non-empty word, flooring the pause multiplier at
`profile.paragraph` for the last word of every non-final line. -/
def lineTokens (profile : PauseProfile) (numLines i : ℕ) (rawLine : List Char) :
    List Token :=
  let line := trimChars rawLine
  if line = [] then []
  else
    let words := splitWs line
    words.enum.filterMap fun p =>
      if p.2 = [] then none
      else
        let isEndOfParagraph := p.1 = words.length - 1 ∧ i < numLines - 1
        let pm := calculatePauseMultiplier p.2 profile
        some { text := p.2, orpIndex := calculateORPIndex p.2,
               pauseMultiplier := if isEndOfParagraph then max pm profile.paragraph else pm }

/-- `tokenize` from `tokenizer.ts`. -/
def tokenize (text : List Char) (profile : PauseProfile := PAUSE_PROFILES_normal) :
    List Token :=
  let lines := splitLines text
  (lines.enum.map fun p => lineTokens profile lines.length p.1 p.2).flatten

/-- `getTokenDuration` from `tokenizer.ts`. -/
def getTokenDuration (wpm pauseMultiplier : ℚ) : ℚ :=
  60000 / wpm * (1 + pauseMultiplier)

/-- `TimingState` from `timing.ts`. -/
structure TimingState where
  expectedTime : ℚ
  lastTickTime : ℚ
  totalDrift : ℚ
deriving DecidableEq

/-- `createTimingState` from `timing.ts`, with the `performance.now()`
reading passed in explicitly. -/
def createTimingState (now : ℚ) : TimingState :=
  { expectedTime := now, lastTickTime := now, totalDrift := 0 }

/-- `calculateNextTick` from `timing.ts`: returns the delay (`-1` means
run immediately) together with the mutated timing state. -/
def calculateNextTick (now : ℚ) (state : TimingState) (intervalMs : ℚ) :
    ℚ × TimingState :=
  let expectedNextTime := state.expectedTime + intervalMs
  let drift := now - expectedNextTime
  let state1 : TimingState :=
    { state with totalDrift := drift, lastTickTime := now }
  if drift ≥ intervalMs then
    (-1, { state1 with expectedTime := now + intervalMs })
  else
    (max 0 (intervalMs - drift), { state1 with expectedTime := expectedNextTime })

/-- `DriftCompensatedScheduler` from `timing.ts`, modelled together with
the host's timer queue: `pending` is the set of outstanding host timer
handles (handle, is-animation-frame), `timerId` the handle the scheduler
remembers, and `callbackCount` the number of times the user callback has
run. -/
structure Sched where
  timing : TimingState
  intervalMs : ℚ
  isRunning : Bool
  timerId : Option ℕ
  pending : List (ℕ × Bool)
  nextId : ℕ
  callbackCount : ℕ
deriving DecidableEq

/-- `new DriftCompensatedScheduler()`. -/
def newScheduler (now : ℚ) : Sched :=
  { timing := createTimingState now, intervalMs := 0, isRunning := false,
    timerId := none, pending := [], nextId := 0, callbackCount := 0 }

/-- `DriftCompensatedScheduler.start`: guarded no-op when already
running; otherwise runs the callback once synchronously and schedules
the first tick as a timeout. -/
def startS (now intervalMs : ℚ) (s : Sched) : Sched :=
  if s.isRunning then s
  else
    { s with
      isRunning := true,
      timing := createTimingState now,
      intervalMs := intervalMs,
      callbackCount := s.callbackCount + 1,
      pending := s.pending ++ [(s.nextId, false)],
      timerId := some s.nextId,
      nextId := s.nextId + 1 }

/-- `DriftCompensatedScheduler.stop`: clears the running flag and the
remembered handle in both its timeout and animation-frame forms. -/
def stopS (s : Sched) : Sched :=
  { s with
    isRunning := false,
    pending := match s.timerId with
      | some id => s.pending.filter fun e => e.1 != id
      | none => s.pending,
    timerId := none }

/-- The host fires pending timer handle `id` at clock time `now`: the
handle leaves the queue, and the scheduler's `tick` closure runs — it
returns at once when the scheduler is stopped, otherwise it runs the
callback and schedules the next tick (as an animation frame when
`calculateNextTick` signalled `-1`, as a timeout otherwise).  `none`
when no such pending handle exists. -/
def fireTimer (id : ℕ) (now : ℚ) (s : Sched) : Option Sched :=
  match s.pending.find? (fun e => e.1 == id) with
  | none => none
  | some _ =>
    let s1 := { s with pending := s.pending.filter fun e => e.1 != id }
    if s1.isRunning then
      let r := calculateNextTick now s1.timing s1.intervalMs
      some { s1 with
        timing := r.2,
        callbackCount := s1.callbackCount + 1,
        pending := s1.pending ++ [(s1.nextId, decide (r.1 < 0))],
        timerId := some s1.nextId,
        nextId := s1.nextId + 1 }
    else some s1

/-- Invariant of every reachable scheduler state: while running there is
exactly one pending host timer and it is the remembered handle; while
stopped there is no pending host timer at all. -/
def SchedInv (s : Sched) : Prop :=
  (s.isRunning = true → ∃ id k, s.timerId = some id ∧ s.pending = [(id, k)]) ∧
  (s.isRunning = false → s.pending = [])

/-- Playback state held by the `App` component in the application shell
(`currentIndex` is a JS number, so modelled as `ℤ`). -/
structure AppState where
  tokens : List Token
  currentIndex : ℤ
  isPlaying : Bool
  isComplete : Bool
deriving DecidableEq

/-- `handleSkip` from the application shell: clamp `prev + delta` into
`[0, tokens.length - 1]` and clear the complete flag when skipping
backwards from a completed state. -/
def handleSkip (delta : ℤ) (s : AppState) : AppState :=
  { s with
    currentIndex := max 0 (min ((s.tokens.length : ℤ) - 1) (s.currentIndex + delta)),
    isComplete := if delta < 0 ∧ s.isComplete then false else s.isComplete }

/-- `handlePlayPause` from the application shell. -/
def handlePlayPause (s : AppState) : AppState :=
  if s.isPlaying then { s with isPlaying := false }
  else if ¬s.isComplete ∧ s.currentIndex < (s.tokens.length : ℤ) then
    { s with isPlaying := true }
  else s

/-- Loading a token sequence (the textarea change handler together with
the `initDocument` effect): index 0, not playing, complete flag
cleared. -/
def loadTokens (ts : List Token) (s : AppState) : AppState :=
  { s with tokens := ts, currentIndex := 0, isPlaying := false, isComplete := false }

/-- The slice of `UserSettings` the session store reads. -/
structure UserSettings where
  defaultWPM : ℚ
deriving DecidableEq

/-- Chapter range (`Chapter` in `types`). -/
structure Chapter where
  startTokenIndex : ℚ
  endTokenIndex : ℚ
deriving DecidableEq

/-- The slice of a stored document that `updateSessionProgress` reads. -/
structure StoredDoc where
  totalTokens : ℚ
  chapters : List Chapter
deriving DecidableEq

/-- Session record (`Session` in `types`), restricted to the numeric
fields the session store computes. -/
structure Session where
  startedAt : ℚ
  durationSeconds : ℚ
  startWPM : ℚ
  endWPM : ℚ
  avgWPM : ℚ
  tokensRead : ℚ
  completionDeltaOverall : ℚ
  completionDeltaChapter : ℚ
  pauses : ℚ
  rewinds : ℚ
deriving DecidableEq

/-- `createSession` from `session-store.ts`: the average (and start/end)
speed is seeded with `settings?.defaultWPM || 300`. -/
def createSession (settings : Option UserSettings) (now : ℚ) : Session :=
  let seed := match settings with
    | some st => if st.defaultWPM = 0 then 300 else st.defaultWPM
    | none => 300
  { startedAt := now, durationSeconds := 0, startWPM := seed, endWPM := seed,
    avgWPM := seed, tokensRead := 0, completionDeltaOverall := 0,
    completionDeltaChapter := 0, pauses := 0, rewinds := 0 }

/-- `updateSessionProgress` from `session-store.ts`, with the database
reads passed in as options (`none` models a missing record, on which the
original silently returns). -/
def updateSessionProgress (now : ℚ) (session : Option Session) (doc : Option StoredDoc)
    (tokenIndex wpm : ℚ) (isPause isRewind : Bool) : Option Session :=
  match session with
  | none => none
  | some s =>
    match doc with
    | none => none
    | some d =>
      let currentChapter := d.chapters.find? fun ch =>
        decide (ch.startTokenIndex ≤ tokenIndex ∧ tokenIndex < ch.endTokenIndex)
      let newAvgWPM :=
        if s.avgWPM > 0 then (s.avgWPM * s.tokensRead + wpm) / (s.tokensRead + 1)
        else wpm
      some { s with
        durationSeconds := ((⌊(now - s.startedAt) / 1000⌋ : ℤ) : ℚ),
        endWPM := wpm,
        avgWPM := ((jsRound newAvgWPM : ℤ) : ℚ),
        tokensRead := tokenIndex,
        completionDeltaOverall := tokenIndex / d.totalTokens,
        completionDeltaChapter := match currentChapter with
          | some ch => (tokenIndex - ch.startTokenIndex) /
              (ch.endTokenIndex - ch.startTokenIndex)
          | none => 0,
        pauses := if isPause then s.pauses + 1 else s.pauses,
        rewinds := if isRewind then s.rewinds + 1 else s.rewinds }

/-- Maximal non-whitespace runs of a character list, in order.  This is
the specification-side reading of "the non-empty whitespace-separated
fragments" of a line. -/
def chunksList : List Char → List (List Char)
  | [] => []
  | c :: rest =>
    if isWs c then chunksList rest
    else
      match rest.head? with
      | some d => if isWs d then [c] :: chunksList rest else consHead c (chunksList rest)
      | none => [[c]]

/-- Specification-side fragment count: the number of non-empty
whitespace-separated fragments across all newline-separated lines. -/
def countFragments (text : List Char) : ℕ :=
  ((splitLines text).map fun l => (chunksList l).length).sum

/-- C1: one call to `calculateNextTick` computes
`drift = now - (state.expectedTime + intervalMs)`; when `drift ≥ intervalMs`
it signals an immediate tick (`-1`) and resets the expected-time baseline to
`now + intervalMs`; otherwise it returns `max 0 (intervalMs - drift)` and
advances the baseline by exactly one interval, to the old
`expectedTime + intervalMs`, not to `now`. -/
theorem calculateNextTick_spec (s : TimingState) (intervalMs now : ℚ) :
    (now - (s.expectedTime + intervalMs) ≥ intervalMs →
      calculateNextTick now s intervalMs =
        (-1, ⟨now + intervalMs, now, now - (s.expectedTime + intervalMs)⟩)) ∧
    (now - (s.expectedTime + intervalMs) < intervalMs →
      calculateNextTick now s intervalMs =
        (max 0 (intervalMs - (now - (s.expectedTime + intervalMs))),
         ⟨s.expectedTime + intervalMs, now, now - (s.expectedTime + intervalMs)⟩)) := by
  refine ⟨fun h => ?_, fun h => ?_⟩
  · simp only [calculateNextTick]
    rw [if_pos h]
  · simp only [calculateNextTick]
    rw [if_neg (not_le.mpr h)]

/-- Witness for C1: a late tick (drift 150 ≥ interval 100) fires immediately
and rebases to `now + interval`; a mildly late tick (drift 20) waits
`interval - drift = 80` and advances the baseline by one interval. -/
theorem calculateNextTick_spec_witness :
    calculateNextTick 250 ⟨0, 0, 0⟩ 100 = (-1, ⟨350, 250, 150⟩) ∧
    calculateNextTick 120 ⟨0, 0, 0⟩ 100 = (80, ⟨100, 120, 20⟩) := by
  constructor
  · have h := (calculateNextTick_spec ⟨0, 0, 0⟩ 100 250).1 (by norm_num)
    rw [h]
    simp only [Prod.mk.injEq, TimingState.mk.injEq]
    norm_num
  · have h := (calculateNextTick_spec ⟨0, 0, 0⟩ 100 120).2 (by norm_num)
    rw [h]
    simp only [Prod.mk.injEq, TimingState.mk.injEq]
    norm_num

/-- C2: `getTokenDuration wpm m = 60000 / wpm * (1 + m)` milliseconds;
`getTokenDuration 300 0 = 200` exactly; the duration is strictly decreasing
in the words-per-minute argument (for positive speeds) and strictly
increasing in the pause multiplier. -/
theorem getTokenDuration_spec :
    getTokenDuration 300 0 = 200 ∧
    (∀ w m : ℚ, getTokenDuration w m = 60000 / w * (1 + m)) ∧
    (∀ w1 w2 m : ℚ, 0 < w1 → w1 < w2 → 0 ≤ m →
      getTokenDuration w2 m < getTokenDuration w1 m) ∧
    (∀ w m1 m2 : ℚ, 0 < w → m1 < m2 → getTokenDuration w m1 < getTokenDuration w m2) := by
  refine ⟨by norm_num [getTokenDuration], fun w m => rfl,
    fun w1 w2 m h1 h12 hm => ?_, fun w m1 m2 hw h => ?_⟩
  · have hq : (60000 : ℚ) / w2 < 60000 / w1 :=
      div_lt_div_of_pos_left (by norm_num) h1 h12
    have hpos : (0 : ℚ) < 1 + m := by linarith
    simpa [getTokenDuration] using mul_lt_mul_of_pos_right hq hpos
  · have hb : (0 : ℚ) < 60000 / w := by positivity
    have hm : (1 : ℚ) + m1 < 1 + m2 := by linarith
    simpa [getTokenDuration] using mul_lt_mul_of_pos_left hm hb

/-- Witness for C2: doubling the speed from 300 to 600 strictly shrinks the
duration, and raising the multiplier from 0 to 1 strictly grows it. -/
theorem getTokenDuration_spec_witness :
    getTokenDuration 600 0 < getTokenDuration 300 0 ∧
    getTokenDuration 300 0 < getTokenDuration 300 1 :=
  ⟨getTokenDuration_spec.2.2.1 300 600 0 (by norm_num) (by norm_num) le_rfl,
   getTokenDuration_spec.2.2.2 300 0 1 (by norm_num) (by norm_num)⟩

/-- C4: with a non-empty token list, `handleSkip delta` always sets the index
to `old + delta` clamped into `[0, tokenCount - 1]` (it is a total function,
never an error), and skipping backwards from a Complete state (complete flag
set, not playing) lands in Paused: complete flag cleared, still not
playing. -/
theorem handleSkip_spec (s : AppState) (delta : ℤ) (_hne : s.tokens ≠ []) :
    (handleSkip delta s).currentIndex =
      max 0 (min ((s.tokens.length : ℤ) - 1) (s.currentIndex + delta)) ∧
    (delta < 0 → s.isComplete = true → s.isPlaying = false →
      (handleSkip delta s).isComplete = false ∧ (handleSkip delta s).isPlaying = false) := by
  refine ⟨rfl, fun hd hc hp => ⟨?_, hp⟩⟩
  simp [handleSkip, hd, hc]

/-- Witness for C4: rewinding one step from a completed single-token state
clamps the index to 0, clears the complete flag and stays paused. -/
theorem handleSkip_spec_witness :
    (handleSkip (-1) ⟨[⟨['a'], 0, 0⟩], 0, false, true⟩).currentIndex =
      max 0 (min ((([⟨['a'], 0, 0⟩] : List Token).length : ℤ) - 1) (0 + -1)) ∧
    (handleSkip (-1) ⟨[⟨['a'], 0, 0⟩], 0, false, true⟩).isComplete = false ∧
    (handleSkip (-1) ⟨[⟨['a'], 0, 0⟩], 0, false, true⟩).isPlaying = false := by
  have h := handleSkip_spec ⟨[⟨['a'], 0, 0⟩], 0, false, true⟩ (-1) (by simp)
  exact ⟨h.1, h.2 (by norm_num) rfl rfl⟩

/-- C7: loading an empty token sequence is a valid state — index 0, not
playing, not complete, no error — and on any state whose token list is empty
(and whose index is non-negative, as in every reachable state) the play
handler can never turn playing on; when already paused it is a no-op. -/
theorem empty_tokens_spec (s : AppState) :
    ((loadTokens [] s).currentIndex = 0 ∧ (loadTokens [] s).isPlaying = false ∧
      (loadTokens [] s).isComplete = false ∧ (loadTokens [] s).tokens = []) ∧
    (s.tokens = [] → 0 ≤ s.currentIndex →
      (handlePlayPause s).isPlaying = false ∧
      (s.isPlaying = false → handlePlayPause s = s)) := by
  refine ⟨⟨rfl, rfl, rfl, rfl⟩, fun ht hi => ?_⟩
  cases hp : s.isPlaying with
  | true =>
    refine ⟨by simp [handlePlayPause, hp], fun h => ?_⟩
    simp [hp] at h
  | false =>
    have hlt : ¬ s.currentIndex < ((s.tokens.length : ℤ)) := by
      rw [ht]
      simpa using hi
    have hres : handlePlayPause s = s := by
      simp only [handlePlayPause, hp, Bool.false_eq_true, if_false]
      rw [if_neg fun hc => hlt hc.2]
    exact ⟨by rw [hres]; exact hp, fun _ => hres⟩

/-- Witness for C7: on the empty-token ready state, play is a no-op and the
playing flag stays off. -/
theorem empty_tokens_spec_witness :
    (handlePlayPause ⟨[], 0, false, false⟩).isPlaying = false ∧
    handlePlayPause ⟨[], 0, false, false⟩ = ⟨[], 0, false, false⟩ := by
  have h := (empty_tokens_spec ⟨[], 0, false, false⟩).2 rfl (by norm_num)
  exact ⟨h.1, h.2 rfl⟩

/-- C9: with an empty token list the clamp `max 0 (min (len - 1) (i + delta))`
collapses to 0 for every prior index and every delta, so the index never goes
negative or out of the model's bounds even though the nominal range
`[0, tokenCount - 1]` is empty. -/
theorem handleSkip_empty (s : AppState) (delta : ℤ) (h : s.tokens = []) :
    (handleSkip delta s).currentIndex = 0 := by
  simp only [handleSkip, h, List.length_nil, Nat.cast_zero, zero_sub]
  exact max_eq_left (le_trans (min_le_left _ _) (by norm_num))

/-- Witness for C9: skipping by -5 from index 7 with no tokens loaded lands
on index 0. -/
theorem handleSkip_empty_witness :
    (handleSkip (-5) ⟨[], 7, false, false⟩).currentIndex = 0 :=
  handleSkip_empty ⟨[], 7, false, false⟩ (-5) rfl

/-- Helper for C3: on any state satisfying the scheduler invariant, `stop`
leaves no pending host timer behind. -/
theorem stopS_pending_eq_nil (s : Sched) (h : SchedInv s) : (stopS s).pending = [] := by
  cases hr : s.isRunning with
  | true =>
    obtain ⟨id, k, ht, hp⟩ := h.1 hr
    simp [stopS, ht, hp]
  | false =>
    have hp := h.2 hr
    cases htid : s.timerId <;> simp [stopS, htid, hp]

/-- C3: scheduler lifecycle safety.  `start` on an already-running scheduler
is the identity (no second timer chain); `stop` is idempotent and safe on a
never-started scheduler; the reachable-state invariant (exactly one pending
host handle while running, none while stopped) holds initially and is
preserved by `start`, `stop` and timer firing; and after `stop` returns there
is no pending handle left, so no previously scheduled tick — timeout or
animation-frame — can ever fire (and in particular the callback never runs
again). -/
theorem scheduler_lifecycle_spec :
    (∀ now i s, s.isRunning = true → startS now i s = s) ∧
    (∀ s, stopS (stopS s) = stopS s) ∧
    (∀ now : ℚ, SchedInv (newScheduler now)) ∧
    (∀ now i s, SchedInv s → SchedInv (startS now i s)) ∧
    (∀ s, SchedInv s → SchedInv (stopS s)) ∧
    (∀ id now s s1, SchedInv s → fireTimer id now s = some s1 → SchedInv s1) ∧
    (∀ id now s, SchedInv s → fireTimer id now (stopS s) = none) := by
  refine ⟨fun now i s h => by simp [startS, h], fun s => rfl,
    fun now => ⟨fun h => by simp [newScheduler] at h, fun _ => rfl⟩,
    fun now i s h => ?_, fun s h => ?_, fun id now s s1 h hf => ?_, fun id now s h => ?_⟩
  · cases hr : s.isRunning with
    | true => simpa [startS, hr] using h
    | false =>
      have hp := h.2 hr
      refine ⟨fun _ => ⟨s.nextId, false, ?_, ?_⟩, fun hfalse => ?_⟩
      · simp [startS, hr]
      · simp [startS, hr, hp]
      · simp [startS, hr] at hfalse
  · exact ⟨fun htrue => by simp [stopS] at htrue, fun _ => stopS_pending_eq_nil s h⟩
  · unfold fireTimer at hf
    cases hfind : s.pending.find? (fun e => e.1 == id) with
    | none => rw [hfind] at hf; cases hf
    | some e =>
      rw [hfind] at hf
      have hmem := List.find?_some hfind
      have hmem2 := List.mem_of_find?_eq_some hfind
      cases hr : s.isRunning with
      | false =>
        have hp := h.2 hr
        rw [hp] at hmem2
        cases hmem2
      | true =>
        obtain ⟨tid, k, ht, hp⟩ := h.1 hr
        rw [hp] at hmem2
        simp at hmem2
        have hid : tid = id := by
          rw [hmem2] at hmem
          simpa using hmem
        simp only [hr, if_true] at hf
        have hfilter : s.pending.filter (fun e => e.1 != id) = [] := by
          rw [hp, hid]
          simp
        simp only [hfilter] at hf
        have hs1 := Option.some.inj hf
        rw [← hs1]
        exact ⟨fun _ => ⟨s.nextId, decide ((calculateNextTick now s.timing s.intervalMs).1 < 0),
          rfl, by simp⟩, fun hfalse => by simp at hfalse⟩
  · have hp := stopS_pending_eq_nil s h
    unfold fireTimer
    rw [hp]
    rfl

/-- Witness for C3: starting a freshly started scheduler is a no-op, and
after stopping it the host has no timer left to fire. -/
theorem scheduler_lifecycle_spec_witness :
    startS 0 100 (startS 0 100 (newScheduler 0)) = startS 0 100 (newScheduler 0) ∧
    fireTimer 0 5 (stopS (startS 0 100 (newScheduler 0))) = none := by
  constructor
  · exact scheduler_lifecycle_spec.1 0 100 _ rfl
  · exact scheduler_lifecycle_spec.2.2.2.2.2.2 0 5 _
      (scheduler_lifecycle_spec.2.2.2.1 0 100 _ (scheduler_lifecycle_spec.2.2.1 0))

/-- Concrete session and document records used to exercise the session
store. -/
def sessionCE : Session :=
  { startedAt := 0, durationSeconds := 0, startWPM := 300, endWPM := 300,
    avgWPM := 300, tokensRead := 2, completionDeltaOverall := 0,
    completionDeltaChapter := 0, pauses := 0, rewinds := 0 }

/-- Concrete stored document used to exercise the session store. -/
def docCE : StoredDoc := { totalTokens := 10, chapters := [] }

/-- Counterexample for C8: the stored average is `Math.round` of the running
weighted mean, not the mean itself — updating a session with old average
300, weight 2 and current speed 350 stores 317, while the claimed mean is
950/3. -/
theorem updateSessionProgress_avg_counterexample :
    (updateSessionProgress 0 (some sessionCE) (some docCE) 5 350 false false).map
        Session.avgWPM = some 317 ∧
    (317 : ℚ) ≠ (sessionCE.avgWPM * sessionCE.tokensRead + 350) / (sessionCE.tokensRead + 1) := by
  constructor
  · have hj : jsRound ((950 : ℚ) / 3) = 317 := by
      unfold jsRound
      rw [Int.floor_eq_iff]
      norm_num
    simp only [updateSessionProgress, Option.map, sessionCE, docCE]
    norm_num [hj]
  · norm_num [sessionCE]

/-- C8 (amended): whenever both the session and its document are present and
the stored average is positive, the updated stored average equals
`Math.round((oldAvg * storedTokensRead + currentSpeed) / (storedTokensRead + 1))`
— the running weighted mean rounded to the nearest integer — and the average
is seeded at session creation with the user's configured default speed, 300
when no settings record exists. -/
theorem updateSessionProgress_avg_spec :
    (∀ (now : ℚ) (s : Session) (d : StoredDoc) (tokenIndex wpm : ℚ) (p r : Bool),
      s.avgWPM > 0 →
      (updateSessionProgress now (some s) (some d) tokenIndex wpm p r).map Session.avgWPM =
        some ((jsRound ((s.avgWPM * s.tokensRead + wpm) / (s.tokensRead + 1)) : ℤ) : ℚ)) ∧
    (∀ now : ℚ, (createSession none now).avgWPM = 300) ∧
    (∀ (st : UserSettings) (now : ℚ), st.defaultWPM ≠ 0 →
      (createSession (some st) now).avgWPM = st.defaultWPM) := by
  refine ⟨fun now s d ti wpm p r h => ?_, fun now => rfl, fun st now h => ?_⟩
  · simp only [updateSessionProgress, Option.map]
    rw [if_pos h]
  · simp [createSession, h]

/-- Witness for C8: the concrete update stores `round(950/3) = 317`, and a
configured default speed of 250 seeds the average. -/
theorem updateSessionProgress_avg_spec_witness :
    (updateSessionProgress 0 (some sessionCE) (some docCE) 5 350 false false).map
        Session.avgWPM =
      some ((jsRound ((sessionCE.avgWPM * sessionCE.tokensRead + 350) /
        (sessionCE.tokensRead + 1)) : ℤ) : ℚ) ∧
    (createSession (some ⟨250⟩) 0).avgWPM = 250 :=
  ⟨updateSessionProgress_avg_spec.1 0 sessionCE docCE 5 350 false false
      (by norm_num [sessionCE]),
   updateSessionProgress_avg_spec.2.2 ⟨250⟩ 0 (by norm_num)⟩

/-- Unfolding lemma for `chunksList` on a cons cell. -/
theorem chunksList_cons (c : Char) (rest : List Char) :
    chunksList (c :: rest) =
      if isWs c then chunksList rest
      else
        match rest.head? with
        | some d => if isWs d then [c] :: chunksList rest else consHead c (chunksList rest)
        | none => [[c]] := rfl

/-- Unfolding lemma for `splitWsAux` on a cons cell. -/
theorem splitWsAux_cons (b : Bool) (c : Char) (rest : List Char) :
    splitWsAux b (c :: rest) =
      if isWs c then
        if b then splitWsAux true rest else [] :: splitWsAux true rest
      else consHead c (splitWsAux false rest) := rfl

/-- `consHead` never produces the empty fragment list. -/
theorem consHead_ne_nil (c : Char) (L : List (List Char)) : consHead c L ≠ [] := by
  cases L <;> simp [consHead]

/-- `splitWsAux` never produces the empty fragment list. -/
theorem splitWsAux_ne_nil (b : Bool) (l : List Char) : splitWsAux b l ≠ [] := by
  induction l generalizing b with
  | nil => simp [splitWsAux]
  | cons c rest ih =>
    rw [splitWsAux_cons]
    split
    · split
      · exact ih true
      · simp
    · exact consHead_ne_nil _ _

/-- A list of whitespace characters has no fragments. -/
theorem chunksList_eq_nil (l : List Char) (h : ∀ c ∈ l, isWs c = true) :
    chunksList l = [] := by
  induction l with
  | nil => rfl
  | cons c rest ih =>
    rw [chunksList_cons, if_pos (h c (.head _))]
    exact ih fun d hd => h d (.tail _ hd)

/-- Dropping leading whitespace does not change the fragments. -/
theorem chunksList_dropWhile_ws (l : List Char) :
    chunksList (l.dropWhile isWs) = chunksList l := by
  induction l with
  | nil => rfl
  | cons c rest ih =>
    rw [List.dropWhile_cons]
    cases hc : isWs c with
    | false => simp [hc]
    | true =>
      rw [if_pos rfl, chunksList_cons, if_pos hc]
      exact ih

/-- Appending trailing whitespace does not change the fragments. -/
theorem chunksList_append_ws (t : List Char) (ht : ∀ c ∈ t, isWs c = true)
    (l : List Char) : chunksList (l ++ t) = chunksList l := by
  induction l with
  | nil => simpa using chunksList_eq_nil t ht
  | cons c rest ih =>
    rw [List.cons_append, chunksList_cons, chunksList_cons]
    cases hc : isWs c with
    | true =>
      rw [if_pos rfl, if_pos rfl]
      exact ih
    | false =>
      rw [if_neg (by simp), if_neg (by simp)]
      cases hrest : rest with
      | nil =>
        rw [hrest] at ih
        simp only [List.nil_append]
        cases htl : t with
        | nil => rfl
        | cons d r =>
          rw [htl] at ht
          have hd : isWs d = true := ht d (.head _)
          simp only [List.head?_cons, hd, if_pos rfl]
          rw [chunksList_eq_nil (d :: r) ht]
          simp
      | cons d r2 =>
        rw [hrest] at ih
        rw [List.cons_append] at ih
        simp only [List.cons_append, List.head?_cons]
        cases hd : isWs d with
        | true =>
          rw [if_pos rfl, if_pos rfl, ih]
        | false =>
          rw [if_neg (by simp), if_neg (by simp), ih]

/-- Trimming does not change the fragments. -/
theorem chunksList_trimChars (l : List Char) :
    chunksList (trimChars l) = chunksList l := by
  have h1 : chunksList (l.dropWhile isWs) = chunksList l := chunksList_dropWhile_ws l
  set m := l.dropWhile isWs with hm
  have hd2 : m = (List.dropWhile isWs m.reverse).reverse ++
      (List.takeWhile isWs m.reverse).reverse := by
    conv_lhs => rw [← List.reverse_reverse m,
      ← List.takeWhile_append_dropWhile isWs m.reverse]
    rw [List.reverse_append]
  have hws : ∀ c ∈ (List.takeWhile isWs m.reverse).reverse, isWs c = true := by
    intro c hc
    rw [List.mem_reverse] at hc
    exact List.mem_takeWhile_imp hc
  have h2 : chunksList m = chunksList (List.dropWhile isWs m.reverse).reverse := by
    conv_lhs => rw [hd2]
    exact chunksList_append_ws _ hws _
  have htr : trimChars l = (List.dropWhile isWs m.reverse).reverse := rfl
  rw [htr, ← h2, h1]

/-- A list whose trim is empty has no fragments. -/
theorem chunksList_eq_nil_of_trim (l : List Char) (h : trimChars l = []) :
    chunksList l = [] := by
  rw [← chunksList_trimChars l, h]
  rfl

/-- The non-empty fragments of the JS whitespace split are exactly the
maximal non-whitespace runs, whatever state the transducer starts in. -/
theorem splitWsAux_filter_eq_chunksList (l : List Char) :
    ∀ b, (splitWsAux b l).filter (fun w => !w.isEmpty) = chunksList l := by
  induction l with
  | nil => intro b; rfl
  | cons c rest ih =>
    intro b
    cases hc : isWs c with
    | true =>
      have hrec := ih true
      rw [splitWsAux_cons, if_pos hc, chunksList_cons, if_pos hc]
      cases b with
      | true => exact hrec
      | false =>
        rw [if_neg (by simp), List.filter_cons]
        simpa using hrec
    | false =>
      rw [splitWsAux_cons, if_neg (by simp [hc]), chunksList_cons, if_neg (by simp [hc])]
      cases hrest : rest with
      | nil => rfl
      | cons d r2 =>
        have hfr := ih false
        rw [hrest] at hfr
        cases hd : isWs d with
        | true =>
          have hsm : splitWsAux false (d :: r2) = [] :: splitWsAux true r2 := by
            rw [splitWsAux_cons, if_pos hd, if_neg (by simp)]
          have hck : chunksList (d :: r2) = chunksList r2 := by
            rw [chunksList_cons, if_pos hd]
          rw [hsm, hck] at hfr
          rw [List.filter_cons] at hfr
          simp only [List.isEmpty_nil, Bool.not_true, Bool.false_eq_true, if_false] at hfr
          rw [hsm]
          simp only [consHead, List.head?_cons, hd, if_pos rfl, hck]
          rw [List.filter_cons]
          simp only [List.isEmpty_cons, Bool.not_false, if_pos rfl]
          rw [hfr]
          simp
        | false =>
          cases hx : splitWsAux false r2 with
          | nil => exact absurd hx (splitWsAux_ne_nil false r2)
          | cons x xs =>
            have hsm : splitWsAux false (d :: r2) = (d :: x) :: xs := by
              rw [splitWsAux_cons, if_neg (by simp [hd]), hx]
              rfl
            rw [hsm] at hfr
            rw [List.filter_cons] at hfr
            simp only [List.isEmpty_cons, Bool.not_false, if_pos rfl] at hfr
            rw [hsm]
            simp only [consHead, List.head?_cons, hd, Bool.false_eq_true, if_false]
            rw [List.filter_cons]
            simp only [List.isEmpty_cons, Bool.not_false, if_pos rfl]
            rw [← hfr]
            rfl

/-- The non-empty fragments of `splitWs` are the maximal non-whitespace
runs. -/
theorem splitWs_filter_eq_chunksList (l : List Char) :
    (splitWs l).filter (fun w => !w.isEmpty) = chunksList l :=
  splitWsAux_filter_eq_chunksList l false

/-- Token texts produced from an enumerated word list are exactly its
non-empty words, for any token builder that stores the word as the
text. -/
theorem filterMap_tokens_map_text (g : ℕ → List Char → Token)
    (hg : ∀ j w, (g j w).text = w) (ws : List (List Char)) :
    ∀ n : ℕ,
      ((List.enumFrom n ws).filterMap fun p =>
          if p.2 = [] then none else some (g p.1 p.2)).map Token.text =
        ws.filter fun w => !w.isEmpty := by
  induction ws with
  | nil => intro n; rfl
  | cons w ws ih =>
    intro n
    rw [List.enumFrom_cons, List.filterMap_cons, List.filter_cons]
    by_cases hw : w = []
    · simp only [hw, if_pos rfl, List.isEmpty_nil, Bool.not_true, Bool.false_eq_true, if_false]
      exact ih (n + 1)
    · have hne : (!w.isEmpty) = true := by simpa [List.isEmpty_iff] using hw
      rw [if_neg hw, if_pos hne, List.map_cons, hg, ih (n + 1)]

/-- The texts of one line's tokens are exactly the maximal non-whitespace
runs of the raw line. -/
theorem lineTokens_map_text (profile : PauseProfile) (numLines i : ℕ)
    (raw : List Char) :
    (lineTokens profile numLines i raw).map Token.text = chunksList raw := by
  by_cases htrim : trimChars raw = []
  · simp only [lineTokens, if_pos htrim, chunksList_eq_nil_of_trim raw htrim,
      List.map_nil]
  · simp only [lineTokens, if_neg htrim]
    have h := filterMap_tokens_map_text
      (fun j w =>
        Token.mk w (calculateORPIndex w)
          (if j = (splitWs (trimChars raw)).length - 1 ∧ i < numLines - 1 then
            max (calculatePauseMultiplier w profile) profile.paragraph
          else calculatePauseMultiplier w profile))
      (fun j w => rfl) (splitWs (trimChars raw)) 0
    rw [splitWs_filter_eq_chunksList, chunksList_trimChars] at h
    exact h

/-- The token texts of `tokenize` are the maximal non-whitespace runs of
each newline-separated line, in source order. -/
theorem tokenize_map_text (text : List Char) (profile : PauseProfile) :
    (tokenize text profile).map Token.text =
      ((splitLines text).map chunksList).flatten := by
  unfold tokenize
  rw [List.map_flatten, List.map_map]
  have h : (List.map Token.text ∘ fun p : ℕ × List Char =>
      lineTokens profile (splitLines text).length p.1 p.2) =
      fun p : ℕ × List Char => chunksList p.2 := by
    funext p
    exact lineTokens_map_text profile (splitLines text).length p.1 p.2
  rw [h]
  have h2 : (fun p : ℕ × List Char => chunksList p.2) =
      chunksList ∘ Prod.snd := rfl
  rw [h2, ← List.map_map, List.enum_map_snd]

/-- C5: `tokenize` produces exactly one token per non-empty
whitespace-separated fragment, in source order across all lines — the
token texts are the fragments of each newline-separated line concatenated
in order, the token count equals the total fragment count, and empty
input yields the empty token sequence. -/
theorem tokenize_fragments_spec (text : List Char) (profile : PauseProfile) :
    (tokenize text profile).map Token.text =
      ((splitLines text).map chunksList).flatten ∧
    (tokenize text profile).length = countFragments text ∧
    tokenize [] profile = [] := by
  refine ⟨tokenize_map_text text profile, ?_, rfl⟩
  have h1 : (tokenize text profile).length =
      ((tokenize text profile).map Token.text).length := (List.length_map _ _).symm
  rw [h1, tokenize_map_text text profile, List.length_flatten, List.map_map]
  rfl

/-- Trimming a list with no whitespace characters is the identity. -/
theorem trimChars_eq_self (w : List Char) (h : ∀ c ∈ w, isWs c = false) :
    trimChars w = w := by
  have h1 : w.dropWhile isWs = w := by
    cases w with
    | nil => rfl
    | cons c rest => rw [List.dropWhile_cons, if_neg (by simp [h c (.head _)])]
  unfold trimChars
  rw [h1]
  have h2 : w.reverse.dropWhile isWs = w.reverse := by
    cases hw : w.reverse with
    | nil => rfl
    | cons c rest =>
      have hc : c ∈ w := by
        rw [← List.mem_reverse, hw]
        exact .head _
      rw [List.dropWhile_cons, if_neg (by simp [h c hc])]
  rw [h2, List.reverse_reverse]

/-- Splitting a list with no whitespace yields that single fragment. -/
theorem splitWs_eq_single (w : List Char) (h : ∀ c ∈ w, isWs c = false) :
    splitWs w = [w] := by
  show splitWsAux false w = [w]
  induction w with
  | nil => rfl
  | cons c rest ih =>
    rw [splitWsAux_cons, if_neg (by simp [h c (.head _)]),
      ih fun d hd => h d (.tail _ hd)]
    rfl

/-- `splitLines` on the empty input. -/
theorem splitLines_nil : splitLines [] = [[]] := rfl

/-- `splitLines` consumes a CRLF pair as one separator. -/
theorem splitLines_crnl (rest : List Char) :
    splitLines ('\r' :: '\n' :: rest) = [] :: splitLines rest := rfl

/-- `splitLines` consumes a bare LF as a separator. -/
theorem splitLines_cons_nl (rest : List Char) :
    splitLines ('\n' :: rest) = [] :: splitLines rest := rfl

/-- `splitLines` keeps any character that is not LF and not CR. -/
theorem splitLines_cons_other (c : Char) (rest : List Char) (h1 : c ≠ '\n')
    (h2 : c ≠ '\r') : splitLines (c :: rest) = consHead c (splitLines rest) := by
  rw [splitLines.eq_def]
  split
  · rename_i heq; cases heq
  · rename_i heq; injection heq with h h'; exact absurd h h2
  · rename_i heq; injection heq with h h'; exact absurd h h1
  · rename_i c' rest' h3 h4 heq
    injection heq with h h'
    subst h; subst h'; rfl

/-- `splitLines` keeps a CR that is not followed by LF. -/
theorem splitLines_cons_cr (rest : List Char) (h : rest.head? ≠ some '\n') :
    splitLines ('\r' :: rest) = consHead '\r' (splitLines rest) := by
  rw [splitLines.eq_def]
  split
  · rename_i heq; cases heq
  · rename_i heq
    injection heq with ha hb
    rw [hb] at h
    simp at h
  · rename_i heq; injection heq with ha hb; cases ha
  · rename_i c' rest' h3 h4 heq
    injection heq with ha hb
    subst ha; subst hb; rfl

/-- `splitLines` always yields at least one line. -/
theorem splitLines_ne_nil (l : List Char) : splitLines l ≠ [] := by
  induction l using splitLines.induct with
  | case1 => simp [splitLines_nil]
  | case2 rest ih => rw [splitLines_crnl]; simp
  | case3 rest ih => rw [splitLines_cons_nl]; simp
  | case4 c rest h1 h2 ih =>
    by_cases hc : c = '\r'
    · subst hc
      have hh : rest.head? ≠ some '\n' := by
        intro hh
        cases rest with
        | nil => simp at hh
        | cons d r =>
          simp only [List.head?_cons, Option.some.injEq] at hh
          exact h1 r rfl (by rw [hh])
      rw [splitLines_cons_cr rest hh]
      exact consHead_ne_nil _ _
    · have hn : c ≠ '\n' := fun hh => h2 hh
      rw [splitLines_cons_other c rest hn hc]
      exact consHead_ne_nil _ _

/-- A run of non-whitespace characters followed by a LF forms its own
line in front of the remaining lines. -/
theorem splitLines_word_append (w t : List Char) (h : ∀ c ∈ w, isWs c = false) :
    splitLines (w ++ '\n' :: t) = w :: splitLines t := by
  induction w with
  | nil => simpa using splitLines_cons_nl t
  | cons c rest ih =>
    have hc := h c (.head _)
    have hcn : c ≠ '\n' := by
      intro hh; rw [hh] at hc; simp [isWs] at hc
    have hcr : c ≠ '\r' := by
      intro hh; rw [hh] at hc; simp [isWs] at hc
    rw [List.cons_append, splitLines_cons_other c _ hcn hcr,
      ih fun d hd => h d (.tail _ hd)]
    rfl

/-- With a profile whose paragraph value dominates every punctuation
value, the punctuation-derived multiplier never exceeds it. -/
theorem calculatePauseMultiplier_le (w : List Char) (profile : PauseProfile)
    (h1 : profile.comma ≤ profile.paragraph) (h2 : profile.colon ≤ profile.paragraph)
    (h3 : profile.period ≤ profile.paragraph)
    (h4 : profile.exclamation ≤ profile.paragraph)
    (h5 : profile.question ≤ profile.paragraph) (h6 : 0 ≤ profile.paragraph) :
    calculatePauseMultiplier w profile ≤ profile.paragraph := by
  unfold calculatePauseMultiplier
  by_cases hdn : hasDoubleNewline w = true
  · rw [if_pos hdn]
  · rw [if_neg hdn]
    cases hlast : (trimChars w).getLast? with
    | none => exact h6
    | some c =>
      dsimp only
      split_ifs with ha hb hc
      · exact max_le h3 (max_le h4 h5)
      · exact h1
      · exact h2
      · exact h6

/-- The first token of a word followed by a blank line (double newline)
carries the paragraph floor: its multiplier is the max of the
punctuation-derived value and the profile's paragraph value. -/
theorem tokenize_double_break_head (word rest : List Char) (profile : PauseProfile)
    (hw : word ≠ []) (hnw : ∀ c ∈ word, isWs c = false) :
    (tokenize (word ++ '\n' :: '\n' :: rest) profile).head? =
      some (Token.mk word (calculateORPIndex word)
        (max (calculatePauseMultiplier word profile) profile.paragraph)) := by
  simp only [tokenize]
  rw [splitLines_word_append word ('\n' :: rest) hnw, splitLines_cons_nl]
  have htrim : trimChars word = word := trimChars_eq_self word hnw
  have hsw : splitWs word = [word] := splitWs_eq_single word hnw
  have hlt : lineTokens profile (word :: [] :: splitLines rest).length 0 word =
      [Token.mk word (calculateORPIndex word)
        (max (calculatePauseMultiplier word profile) profile.paragraph)] := by
    simp only [lineTokens, htrim, if_neg hw, hsw, List.enum, List.enumFrom,
      List.filterMap_cons, List.filterMap_nil, if_neg hw, List.length_cons,
      List.length_singleton]
    rw [if_pos]
    constructor
    · rfl
    · simp
  rw [List.enum_cons, List.map_cons, List.flatten_cons, List.head?_append, hlt]
  rfl

/-- C6: when the pre-trim segment contains a double line break the
computed multiplier is raised to (at least) the profile's paragraph
value; in `tokenize`, a token followed by a blank line gets the maximum
of its punctuation-derived multiplier and the paragraph value, and for
any profile whose paragraph value dominates its punctuation values —
as in every built-in profile — that token's multiplier equals the
paragraph value regardless of its trailing punctuation. -/
theorem paragraph_break_floor_spec :
    (∀ (text : List Char) (profile : PauseProfile), hasDoubleNewline text = true →
      profile.paragraph ≤ calculatePauseMultiplier text profile) ∧
    (∀ (word rest : List Char) (profile : PauseProfile), word ≠ [] →
      (∀ c ∈ word, isWs c = false) →
      (tokenize (word ++ '\n' :: '\n' :: rest) profile).head? =
        some (Token.mk word (calculateORPIndex word)
          (max (calculatePauseMultiplier word profile) profile.paragraph))) ∧
    (∀ (word rest : List Char) (profile : PauseProfile) (tok : Token), word ≠ [] →
      (∀ c ∈ word, isWs c = false) →
      profile.comma ≤ profile.paragraph → profile.colon ≤ profile.paragraph →
      profile.period ≤ profile.paragraph → profile.exclamation ≤ profile.paragraph →
      profile.question ≤ profile.paragraph → 0 ≤ profile.paragraph →
      (tokenize (word ++ '\n' :: '\n' :: rest) profile).head? = some tok →
      tok.pauseMultiplier = profile.paragraph) := by
  refine ⟨fun text profile h => ?_,
    fun word rest profile hw hnw => tokenize_double_break_head word rest profile hw hnw,
    fun word rest profile tok hw hnw h1 h2 h3 h4 h5 h6 hh => ?_⟩
  · have he : calculatePauseMultiplier text profile = profile.paragraph := by
      unfold calculatePauseMultiplier
      rw [if_pos h]
    rw [he]
  · rw [tokenize_double_break_head word rest profile hw hnw] at hh
    have htok := Option.some.inj hh
    rw [← htok]
    exact max_eq_right (calculatePauseMultiplier_le word profile h1 h2 h3 h4 h5 h6)

/-- Witness for C6: a double newline raises the multiplier of `x` to the
normal profile's paragraph value 2.0, and the first token of
`hi.` followed by a blank line gets multiplier 2.0 despite its trailing
period. -/
theorem paragraph_break_floor_spec_witness :
    PAUSE_PROFILES_normal.paragraph ≤
      calculatePauseMultiplier ('x' :: '\n' :: '\n' :: ['y']) PAUSE_PROFILES_normal ∧
    (tokenize (('h' :: 'i' :: '.' :: []) ++ '\n' :: '\n' :: ('o' :: 'k' :: []))
        PAUSE_PROFILES_normal).head?.map Token.pauseMultiplier =
      some PAUSE_PROFILES_normal.paragraph := by
  constructor
  · exact paragraph_break_floor_spec.1 _ _ (by decide)
  · have h2 := paragraph_break_floor_spec.2.1 ('h' :: 'i' :: '.' :: [])
      ('o' :: 'k' :: []) PAUSE_PROFILES_normal (by simp) (by decide)
    have h3 := paragraph_break_floor_spec.2.2 ('h' :: 'i' :: '.' :: [])
      ('o' :: 'k' :: []) PAUSE_PROFILES_normal _ (by simp) (by decide)
      (by norm_num [PAUSE_PROFILES_normal]) (by norm_num [PAUSE_PROFILES_normal])
      (by norm_num [PAUSE_PROFILES_normal]) (by norm_num [PAUSE_PROFILES_normal])
      (by norm_num [PAUSE_PROFILES_normal]) (by norm_num [PAUSE_PROFILES_normal]) h2
    rw [h2]
    simp only [Option.map]
    exact congrArg some h3

/-- Consing onto a non-empty list keeps its last element. -/
theorem getLast?_cons_of_ne_nil {α : Type} (a : α) (l : List α) (h : l ≠ []) :
    (a :: l).getLast? = l.getLast? := by
  cases l with
  | nil => exact absurd rfl h
  | cons b m => exact List.getLast?_cons_cons

/-- `consHead` distributes over appending to a non-empty fragment list. -/
theorem consHead_append (c : Char) (L M : List (List Char)) (h : L ≠ []) :
    consHead c (L ++ M) = consHead c L ++ M := by
  cases L with
  | nil => exact absurd rfl h
  | cons w ws => rfl

/-- Appending a final newline appends one empty line, provided the text
does not end in a bare CR (which the CRLF rule would fuse with it). -/
theorem splitLines_snoc_newline (t : List Char)
    (hcr : ∀ c, t.getLast? = some c → c ≠ '\r') :
    splitLines (t ++ ['\n']) = splitLines t ++ [[]] := by
  induction t using splitLines.induct with
  | case1 => rfl
  | case2 rest ih =>
    have hcr2 : ∀ c, rest.getLast? = some c → c ≠ '\r' := by
      intro c hc
      cases rest with
      | nil => simp at hc
      | cons d r =>
        refine hcr c ?_
        rw [List.getLast?_cons_cons, List.getLast?_cons_cons]
        exact hc
    rw [List.cons_append, List.cons_append, splitLines_crnl, splitLines_crnl,
      ih hcr2, List.cons_append]
  | case3 rest ih =>
    have hcr2 : ∀ c, rest.getLast? = some c → c ≠ '\r' := by
      intro c hc
      cases rest with
      | nil => simp at hc
      | cons d r =>
        refine hcr c ?_
        rw [List.getLast?_cons_cons]
        exact hc
    rw [List.cons_append, splitLines_cons_nl, splitLines_cons_nl, ih hcr2,
      List.cons_append]
  | case4 c rest h1 h2 ih =>
    have hcr2 : ∀ d, rest.getLast? = some d → d ≠ '\r' := by
      intro d hd
      cases rest with
      | nil => simp at hd
      | cons e r =>
        refine hcr d ?_
        rw [List.getLast?_cons_cons]
        exact hd
    have hn : c ≠ '\n' := fun hh => h2 hh
    have heq1 : splitLines (c :: rest) = consHead c (splitLines rest) := by
      by_cases hc : c = '\r'
      · subst hc
        refine splitLines_cons_cr rest ?_
        intro hh
        cases rest with
        | nil => simp at hh
        | cons d r =>
          simp only [List.head?_cons, Option.some.injEq] at hh
          exact h1 r rfl (by rw [hh])
      · exact splitLines_cons_other c rest hn hc
    have heq2 : splitLines (c :: (rest ++ ['\n'])) =
        consHead c (splitLines (rest ++ ['\n'])) := by
      by_cases hc : c = '\r'
      · subst hc
        cases rest with
        | nil => exact absurd (hcr '\r' rfl) (by simp)
        | cons d r =>
          refine splitLines_cons_cr _ ?_
          intro hh
          rw [List.cons_append, List.head?_cons] at hh
          simp only [Option.some.injEq] at hh
          exact h1 r rfl (by rw [hh])
      · exact splitLines_cons_other c _ hn hc
    rw [List.cons_append, heq2, ih hcr2, heq1,
      consHead_append c _ _ (splitLines_ne_nil rest)]

/-- The last element of a flattened list is the last element of one of
its component lists. -/
theorem getLast?_flatten_mem (M : List (List Token)) (x : Token)
    (h : M.flatten.getLast? = some x) : ∃ l ∈ M, l.getLast? = some x := by
  induction M with
  | nil => simp at h
  | cons m M ih =>
    rw [List.flatten_cons, List.getLast?_append] at h
    cases hM : M.flatten.getLast? with
    | some y =>
      rw [hM] at h
      have h2 : some y = some x := h
      obtain ⟨l, hl, hx⟩ := ih (by rw [hM]; exact h2)
      exact ⟨l, .tail _ hl, hx⟩
    | none =>
      rw [hM, Option.none_or] at h
      exact ⟨m, .head _, h⟩

/-- Membership in `enumFrom` gives the index bound and the list entry. -/
theorem enumFrom_mem_getElem? (L : List (List Char)) :
    ∀ (n i : ℕ) (a : List Char), (i, a) ∈ List.enumFrom n L →
      n ≤ i ∧ i - n < L.length ∧ L[(i - n)]? = some a := by
  induction L with
  | nil => intro n i a h; simp [List.enumFrom] at h
  | cons x xs ih =>
    intro n i a h
    rw [List.enumFrom_cons] at h
    rcases List.mem_cons.mp h with h1 | h2
    · have hin : i = n := congrArg Prod.fst h1
      have hax : a = x := congrArg Prod.snd h1
      subst hin; subst hax
      simp
    · obtain ⟨hn, hlt, hg⟩ := ih (n + 1) i a h2
      refine ⟨by omega, by simp only [List.length_cons]; omega, ?_⟩
      have hstep : i - n = (i - (n + 1)) + 1 := by omega
      rw [hstep, List.getElem?_cons_succ]
      exact hg

/-- `filterMap` preserves a last element that maps to `some`. -/
theorem filterMap_getLast? {α β : Type} (f : α → Option β) :
    ∀ (l : List α) (a : α) (y : β), l.getLast? = some a → f a = some y →
      (l.filterMap f).getLast? = some y := by
  intro l
  induction l with
  | nil => intro a y h; simp at h
  | cons p l ih =>
    intro a y hl hf
    cases l with
    | nil =>
      simp only [List.getLast?_singleton, Option.some.injEq] at hl
      subst hl
      rw [List.filterMap_cons, List.filterMap_nil, hf]
      rfl
    | cons q l2 =>
      rw [List.getLast?_cons_cons] at hl
      have hrec := ih a y hl hf
      have hne : List.filterMap f (q :: l2) ≠ [] := by
        intro hnil
        rw [hnil] at hrec
        simp at hrec
      rw [List.filterMap_cons]
      cases hfp : f p with
      | none => exact hrec
      | some b =>
        show (b :: List.filterMap f (q :: l2)).getLast? = some y
        rw [getLast?_cons_of_ne_nil b _ hne]
        exact hrec

/-- The last entry of `enumFrom` pairs the last element with its index. -/
theorem enumFrom_getLast? (L : List (List Char)) :
    ∀ (n : ℕ) (w : List Char), L.getLast? = some w →
      (List.enumFrom n L).getLast? = some (n + L.length - 1, w) := by
  induction L with
  | nil => intro n w h; simp at h
  | cons x xs ih =>
    intro n w h
    cases xs with
    | nil =>
      simp only [List.getLast?_singleton, Option.some.injEq] at h
      subst h
      rfl
    | cons y ys =>
      rw [List.getLast?_cons_cons] at h
      rw [List.enumFrom_cons]
      have hne : List.enumFrom (n + 1) (y :: ys) ≠ [] := by
        simp [List.enumFrom_cons]
      rw [getLast?_cons_of_ne_nil _ _ hne, ih (n + 1) w h]
      have harith : n + 1 + (y :: ys).length - 1 = n + (x :: y :: ys).length - 1 := by
        simp only [List.length_cons]
        omega
      rw [harith]

/-- The head of a `dropWhile` result fails the predicate. -/
theorem dropWhile_head_not :
    ∀ (l : List Char) (c : Char) (r : List Char),
      l.dropWhile isWs = c :: r → isWs c = false := by
  intro l
  induction l with
  | nil => intro c r h; simp at h
  | cons a l ih =>
    intro c r h
    rw [List.dropWhile_cons] at h
    cases ha : isWs a with
    | true =>
      rw [ha] at h
      simp only [if_pos rfl] at h
      exact ih c r h
    | false =>
      rw [ha] at h
      simp only [Bool.false_eq_true, if_false, List.cons.injEq] at h
      rw [← h.1]
      exact ha

/-- A non-empty trimmed line ends in a non-whitespace character. -/
theorem trimChars_getLast_nonws (raw : List Char) (h : trimChars raw ≠ []) :
    ∃ c, (trimChars raw).getLast? = some c ∧ isWs c = false := by
  have htr : trimChars raw =
      (((raw.dropWhile isWs).reverse).dropWhile isWs).reverse := rfl
  rw [htr] at h ⊢
  rw [List.getLast?_reverse]
  cases hx : ((raw.dropWhile isWs).reverse).dropWhile isWs with
  | nil => rw [hx] at h; simp at h
  | cons c r =>
    exact ⟨c, rfl, dropWhile_head_not _ c r hx⟩

/-- The transducer's last fragment is non-empty whenever the input ends
in a non-whitespace character. -/
theorem splitWsAux_getLast_ne_nil (l : List Char) :
    ∀ (b : Bool) (c : Char), l.getLast? = some c → isWs c = false →
      ∃ w, (splitWsAux b l).getLast? = some w ∧ w ≠ [] := by
  induction l with
  | nil => intro b c hc; simp at hc
  | cons c0 rest ih =>
    intro b c hc hcw
    cases rest with
    | nil =>
      simp only [List.getLast?_singleton, Option.some.injEq] at hc
      rw [splitWsAux_cons, if_neg (by simp [hc, hcw])]
      exact ⟨[c0], rfl, by simp⟩
    | cons d r =>
      rw [List.getLast?_cons_cons] at hc
      cases hc0 : isWs c0 with
      | true =>
        obtain ⟨w, hw, hne⟩ := ih true c hc hcw
        rw [splitWsAux_cons, if_pos hc0]
        cases b with
        | true => exact ⟨w, hw, hne⟩
        | false =>
          refine ⟨w, ?_, hne⟩
          rw [if_neg (by simp),
            getLast?_cons_of_ne_nil _ _ (splitWsAux_ne_nil true (d :: r))]
          exact hw
      | false =>
        obtain ⟨w, hw, hne⟩ := ih false c hc hcw
        rw [splitWsAux_cons, if_neg (by simp [hc0])]
        cases hx : splitWsAux false (d :: r) with
        | nil => exact absurd hx (splitWsAux_ne_nil false (d :: r))
        | cons x xs =>
          cases xs with
          | nil =>
            exact ⟨c0 :: x, rfl, by simp⟩
          | cons x2 xs2 =>
            refine ⟨w, ?_, hne⟩
            rw [hx] at hw
            rw [List.getLast?_cons_cons] at hw
            show ((c0 :: x) :: x2 :: xs2).getLast? = some w
            rw [List.getLast?_cons_cons]
            exact hw

/-- The last token of any non-final line (`i < numLines - 1`) carries the
paragraph floor: its multiplier is the max of its punctuation-derived
value and the profile's paragraph value. -/
theorem lineTokens_getLast (profile : PauseProfile) (numLines i : ℕ)
    (raw : List Char) (tok : Token) (hi : i < numLines - 1)
    (h : (lineTokens profile numLines i raw).getLast? = some tok) :
    tok.pauseMultiplier =
      max (calculatePauseMultiplier tok.text profile) profile.paragraph := by
  by_cases htrim : trimChars raw = []
  · rw [lineTokens, if_pos htrim] at h
    simp at h
  · simp only [lineTokens, if_neg htrim] at h
    obtain ⟨c, hlast, hcw⟩ := trimChars_getLast_nonws raw htrim
    obtain ⟨w, hwlast, hwne⟩ :=
      splitWsAux_getLast_ne_nil (trimChars raw) false c hlast hcw
    have hwlast2 : (splitWs (trimChars raw)).getLast? = some w := hwlast
    have he := enumFrom_getLast? (splitWs (trimChars raw)) 0 w hwlast2
    have hzero : 0 + (splitWs (trimChars raw)).length - 1 =
        (splitWs (trimChars raw)).length - 1 := by omega
    rw [hzero] at he
    have he2 : ((splitWs (trimChars raw)).enum).getLast? =
        some ((splitWs (trimChars raw)).length - 1, w) := he
    have hf : (fun p : ℕ × List Char =>
        if p.2 = [] then none
        else
          some (Token.mk p.2 (calculateORPIndex p.2)
            (if p.1 = (splitWs (trimChars raw)).length - 1 ∧ i < numLines - 1 then
              max (calculatePauseMultiplier p.2 profile) profile.paragraph
            else calculatePauseMultiplier p.2 profile)))
        ((splitWs (trimChars raw)).length - 1, w) =
        some (Token.mk w (calculateORPIndex w)
          (max (calculatePauseMultiplier w profile) profile.paragraph)) := by
      show (if w = [] then none else _) = _
      rw [if_neg hwne, if_pos (And.intro rfl hi)]
    have hgl := filterMap_getLast?
      (fun p : ℕ × List Char =>
        if p.2 = [] then none
        else
          some (Token.mk p.2 (calculateORPIndex p.2)
            (if p.1 = (splitWs (trimChars raw)).length - 1 ∧ i < numLines - 1 then
              max (calculatePauseMultiplier p.2 profile) profile.paragraph
            else calculatePauseMultiplier p.2 profile)))
      ((splitWs (trimChars raw)).enum) _ _ he2 hf
    rw [hgl] at h
    have htok := Option.some.inj h
    rw [← htok]

/-- C10: for input that ends with a trailing line break after its last
word (and not with a bare CR, which CRLF handling would fuse), the final
token receives the paragraph floor — its multiplier equals the max of
its punctuation-derived value and the profile's paragraph value —
because the end-of-paragraph test counts the trailing empty line as a
further line. -/
theorem trailing_newline_paragraph_floor (t : List Char)
    (profile : PauseProfile) (tok : Token)
    (hcr : ∀ c, t.getLast? = some c → c ≠ '\r')
    (h : (tokenize (t ++ ['\n']) profile).getLast? = some tok) :
    tok.pauseMultiplier =
      max (calculatePauseMultiplier tok.text profile) profile.paragraph := by
  simp only [tokenize] at h
  rw [splitLines_snoc_newline t hcr] at h
  obtain ⟨l, hlmem, hllast⟩ := getLast?_flatten_mem _ tok h
  rw [List.mem_map] at hlmem
  obtain ⟨p, hpmem, hpl⟩ := hlmem
  have hpmem2 : (p.1, p.2) ∈ List.enumFrom 0 (splitLines t ++ [[]]) := hpmem
  obtain ⟨-, hplt, hpget⟩ := enumFrom_mem_getElem? _ 0 p.1 p.2 hpmem2
  rw [Nat.sub_zero] at hplt hpget
  by_cases hlt : p.1 < (splitLines t).length
  · have hi : p.1 < (splitLines t ++ [[]]).length - 1 := by
      rw [List.length_append]
      simpa using hlt
    refine lineTokens_getLast profile _ p.1 p.2 tok hi ?_
    rw [hpl]
    exact hllast
  · have hp2 : p.2 = [] := by
      rw [List.getElem?_append] at hpget
      rw [if_neg hlt] at hpget
      have hidx : p.1 - (splitLines t).length = 0 := by
        rw [List.length_append] at hplt
        simp only [List.length_singleton] at hplt
        omega
      rw [hidx] at hpget
      simpa using hpget.symm
    rw [← hpl] at hllast
    rw [hp2] at hllast
    have hempty : lineTokens profile (splitLines t ++ [[]]).length p.1 [] = [] := rfl
    rw [hempty] at hllast
    simp at hllast

/-- Witness for C10: tokenizing `hi.` followed by a trailing newline
gives a final token whose multiplier is the paragraph-floored value
`max(sentence pause, paragraph) = 2.0`, despite the trailing period. -/
theorem trailing_newline_paragraph_floor_witness :
    (tokenize (('h' :: 'i' :: '.' :: []) ++ ['\n']) PAUSE_PROFILES_normal).getLast?.map
        Token.pauseMultiplier = some 2 := by
  have hlast : (tokenize (('h' :: 'i' :: '.' :: []) ++ ['\n'])
      PAUSE_PROFILES_normal).getLast? =
      some (Token.mk ('h' :: 'i' :: '.' :: []) 1
        (max (calculatePauseMultiplier ('h' :: 'i' :: '.' :: []) PAUSE_PROFILES_normal)
          PAUSE_PROFILES_normal.paragraph)) := rfl
  have hcr : ∀ c, ('h' :: 'i' :: '.' :: []).getLast? = some c → c ≠ '\r' := by
    intro c hc
    have hc2 : some '.' = some c := hc
    rw [← Option.some.inj hc2]
    decide
  have h := trailing_newline_paragraph_floor ('h' :: 'i' :: '.' :: [])
    PAUSE_PROFILES_normal
    (Token.mk ('h' :: 'i' :: '.' :: []) 1
      (max (calculatePauseMultiplier ('h' :: 'i' :: '.' :: []) PAUSE_PROFILES_normal)
        PAUSE_PROFILES_normal.paragraph)) hcr hlast
  rw [hlast]
  simp only [Option.map]
  refine congrArg some (h.trans ?_)
  have hcpm : calculatePauseMultiplier ('h' :: 'i' :: '.' :: []) PAUSE_PROFILES_normal =
      max PAUSE_PROFILES_normal.period
        (max PAUSE_PROFILES_normal.exclamation PAUSE_PROFILES_normal.question) := rfl
  rw [hcpm]
  norm_num [PAUSE_PROFILES_normal, max_def]

end Glide
